import Mathlib

/-!
Shallow embedding of `src/utils/db.py` (PictoPy catalog store).

The store owns three relations, created outside this module.
Modelled from the spec: `MEDIA(imageID PK, hash UNIQUE, path, hidden)`,
`CLASS(classID PK, class UNIQUE)`, `JUNCTION(imageID, classID)` with a
composite key on `(imageID, classID)`.  The schema constraints are what make
`sqlite3.IntegrityError` fire in `insertIntoDB` and what `INSERT OR IGNORE`
checks for the junction table; the Python module itself only contains the
queries, so the constraints are taken from the spec (section 6).

SQLite specifics reflected in the model:
  * a plain `INSERT` assigns `lastrowid = max(existing rowids) + 1`
    (1 on an empty table), modelled by `nextID`;
  * `expr IN ()` with an empty list is legal in SQLite and matches no row,
    modelled by `List.contains` on the empty list;
  * `GROUP_CONCAT(col)` joins the grouped values with `","`, and the Python
    code then does `row[1].split(',')`; modelled by `pyJoin` / `pySplit`
    on the underlying character lists.

Effects on external collaborators (`deleteFile`, `pathExist` from
`utils.fs`) are made explicit: `deleteFromDB` returns the argument it
passes to `deleteFile`, `cleanDB` takes `pathExist` as a function and
returns `some args` when it invoked `deleteFile args`, `none` otherwise.
-/

namespace PictoPy

/-- Row of the `MEDIA` table: `imageID` (rowid PK), `hash` (UNIQUE),
`path`, `hidden`. -/
structure MediaRow where
  imageID : Nat
  hash : String
  path : String
  hidden : Int
deriving DecidableEq, Repr

/-- Row of the `CLASS` table: `classID` (rowid PK) and the label column
(called `class` in SQL, a reserved word in Lean, hence `label`). -/
structure ClassRow where
  classID : Nat
  label : String
deriving DecidableEq, Repr

/-- Row of the `JUNCTION` table, linking `MEDIA` and `CLASS`;
composite key `(imageID, classID)`. -/
structure JunctionRow where
  imageID : Nat
  classID : Nat
deriving DecidableEq, Repr

/-- The catalog state: the three relations owned by the store. -/
structure DB where
  media : List MediaRow
  classes : List ClassRow
  junction : List JunctionRow
deriving DecidableEq, Repr

/-- The catalog before any insert. -/
def emptyDB : DB := ⟨[], [], []⟩

/-- SQLite rowid allocation for a plain `INSERT`: one more than the largest
rowid in use, `1` on an empty table. -/
def nextID (ids : List Nat) : Nat := ids.foldr max 0 + 1

/-- `","join` as performed by SQLite `GROUP_CONCAT` with the default
separator. -/
def pyJoin (l : List String) : String := ⟨List.intercalate [','] (l.map String.data)⟩

/-- Python `str.split(',')`. -/
def pySplit (s : String) : List String := (s.data.splitOn ',').map (fun cs => ⟨cs⟩)

/-- `hashExist`: `SELECT EXISTS(SELECT 1 FROM MEDIA WHERE hash=?)`. -/
def hashExist (db : DB) (hashValue : String) : Bool :=
  db.media.any (fun r => r.hash == hashValue)

/-- The `MEDIA` rows joined to a given `CLASS` row through `JUNCTION`
(`JOIN JUNCTION j ON c.classID = j.classID JOIN MEDIA i ON
j.imageID = i.imageID`).  `imageID` is a primary key, so at most one media
row matches a junction row; `find?` returns it. -/
def classMembers (db : DB) (cr : ClassRow) : List MediaRow :=
  (db.junction.filter (fun j => j.classID == cr.classID)).filterMap
    (fun j => db.media.find? (fun r => r.imageID == j.imageID))

/-- The projected column values (`i.{groupOf}`) of the members of a class
row that have the requested visibility (`WHERE i.hidden = ?`). -/
def memberVals (db : DB) (cr : ClassRow) (hidden : Int) (groupOf : MediaRow → String) :
    List String :=
  ((classMembers db cr).filter (fun r => r.hidden == hidden)).map groupOf

/-- `groupByClass`: `SELECT c.class, GROUP_CONCAT(i.{groupOf}) ... WHERE
i.hidden = ? GROUP BY c.class`, then `dict[row[0]] = tuple(row[1].split(','))`.
A group is produced only for classes with at least one matching member.
The Python dict is modelled as an association list; `class` labels are
UNIQUE, so keys do not repeat on constraint-satisfying states. -/
def groupByClass (db : DB) (hidden : Int) (groupOf : MediaRow → String) :
    List (String × List String) :=
  db.classes.filterMap (fun cr =>
    if (memberVals db cr hidden groupOf).isEmpty then none
    else some (cr.label, pySplit (pyJoin (memberVals db cr hidden groupOf))))

/-- Effect of `UPDATE MEDIA SET hidden=? WHERE path IN (...)` on a single
row: the row is updated exactly when its `path` is in the `IN` list. -/
def toggleRow (paths : List String) (hidden : Int) (r : MediaRow) : MediaRow :=
  if paths.contains r.path then { r with hidden := hidden } else r

/-- `toggleVisibility`: `UPDATE MEDIA SET hidden=? WHERE path IN (...)`.
An empty `IN ()` list matches no row. -/
def toggleVisibility (db : DB) (paths : List String) (hidden : Int) : DB :=
  { db with media := db.media.map (toggleRow paths hidden) }

/-- `tupleByClass`: iterate over the `groupByClass` dict, keep the groups
whose key is one of the requested classes, and `res.extend` their values. -/
def tupleByClass (db : DB) (classes : List String) (hidden : Int)
    (groupOf : MediaRow → String) : List String :=
  (groupByClass db hidden groupOf).foldl
    (fun res grp => if classes.contains grp.1 then res ++ grp.2 else res) []

/-- `hideByClass`: resolve the currently visible members (Python default
`hidden=0`, default `groupOf="path"`) and set `hidden` to 1. -/
def hideByClass (db : DB) (classes : List String) : DB :=
  toggleVisibility db (tupleByClass db classes 0 MediaRow.path) 1

/-- `unhideByClass`: resolve the currently hidden members (`hidden=1`) and
set `hidden` to 0. -/
def unhideByClass (db : DB) (classes : List String) : DB :=
  toggleVisibility db (tupleByClass db classes 1 MediaRow.path) 0

/-- `deleteFromDB`: `DELETE FROM MEDIA WHERE path IN (...)`, then
`deleteFile(paths)`.  The second component is the argument passed to the
external `deleteFile` collaborator (always invoked, even on an empty
tuple). -/
def deleteFromDB (db : DB) (paths : List String) : DB × List String :=
  ({ db with media := db.media.filter (fun r => !(paths.contains r.path)) }, paths)

/-- `deleteByClass`: `deleteFromDB(conn, tupleByClass(conn, classes))` —
note the Python defaults `hidden=0`, `groupOf="path"`. -/
def deleteByClass (db : DB) (classes : List String) : DB × List String :=
  deleteFromDB db (tupleByClass db classes 0 MediaRow.path)

/-- `cleanDB`: `SELECT path FROM MEDIA`, collect the paths for which the
external `pathExist` probe returns false, and when that list is non-empty
delete them in one batch via `deleteFromDB`.  The second component records
the `deleteFile` invocation (`none` when no mutation happened at all). -/
def cleanDB (pathExist : String → Bool) (db : DB) : DB × Option (List String) :=
  let paths := (db.media.map (fun r => r.path)).filter (fun p => !pathExist p)
  if paths.isEmpty then (db, none)
  else ((deleteFromDB db paths).1, some (deleteFromDB db paths).2)

/-- Body of the per-class loop of `insertIntoDB`: `INSERT INTO
CLASS(class) VALUES(?)` (an `IntegrityError` on the UNIQUE label is caught
and answered by `SELECT classID FROM CLASS WHERE class = ?`), then
`INSERT OR IGNORE INTO JUNCTION(imageID, classID) VALUES(?, ?)` which
inserts unless the composite key is already present. -/
def insertClassTag (imageID : Nat) (db : DB) (className : String) : DB :=
  let found : Nat × DB :=
    match db.classes.find? (fun c => c.label == className) with
    | some c => (c.classID, db)
    | none =>
      let cid := nextID (db.classes.map (fun c => c.classID))
      (cid, { db with classes := db.classes ++ [⟨cid, className⟩] })
  let db2 := found.2
  if db2.junction.any (fun j => j.imageID == imageID && j.classID == found.1) then db2
  else { db2 with junction := db2.junction ++ [⟨imageID, found.1⟩] }

/-- `insertIntoDB`: try `INSERT INTO MEDIA(hash, path, hidden)
VALUES(?, ?, 0)`; the UNIQUE constraint on `hash` raises
`sqlite3.IntegrityError` exactly when the hash is already present, in which
case the handler runs `UPDATE MEDIA SET path = ? WHERE hash = ?` and the
class loop never executes.  Otherwise the new row gets
`imageID = lastrowid` and each class label is processed by
`insertClassTag`. -/
def insertIntoDB (db : DB) (file : String) (imgClass : List String) (imgHash : String) : DB :=
  if hashExist db imgHash then
    { db with
      media := db.media.map (fun r =>
        if r.hash == imgHash then { r with path := file } else r) }
  else
    let imageID := nextID (db.media.map (fun r => r.imageID))
    imgClass.foldl (insertClassTag imageID)
      { db with media := db.media ++ [⟨imageID, imgHash, file, 0⟩] }

/-- Membership of a MediaItem in (one of) a set of class labels, through
the `JUNCTION` and `CLASS` relations. -/
def belongsTo (db : DB) (r : MediaRow) (cs : List String) : Prop :=
  ∃ j ∈ db.junction, j.imageID = r.imageID ∧
    ∃ cr ∈ db.classes, cr.classID = j.classID ∧ cr.label ∈ cs

/-! ### Generic list and string helper lemmas -/

theorem contains_iff {α} [BEq α] [LawfulBEq α] (l : List α) (a : α) :
    l.contains a = true ↔ a ∈ l := by simp

theorem splitOnP_length {α} (p : α → Bool) (xs : List α) :
    (xs.splitOnP p).length = xs.countP p + 1 := by
  induction xs with
  | nil => simp
  | cons x xs ih =>
    rw [List.splitOnP_cons]
    by_cases h : p x <;> simp [h, List.length_modifyHead, ih, List.countP_cons]

theorem sep_not_mem_of_mem_splitOnP {α} (p : α → Bool) (xs : List α) :
    ∀ l ∈ xs.splitOnP p, ∀ a ∈ l, p a = false := by
  induction xs with
  | nil =>
    intro l hl a ha
    simp only [List.splitOnP_nil, List.mem_singleton] at hl
    subst hl; cases ha
  | cons x xs ih =>
    intro l hl a ha
    rw [List.splitOnP_cons] at hl
    by_cases h : p x
    · rw [if_pos h] at hl
      rcases List.mem_cons.mp hl with rfl | hl
      · cases ha
      · exact ih l hl a ha
    · rw [if_neg h] at hl
      rcases hxs : xs.splitOnP p with _ | ⟨hd, tl⟩
      · exact absurd hxs (List.splitOnP_ne_nil p xs)
      · rw [hxs, List.modifyHead] at hl
        rcases List.mem_cons.mp hl with rfl | hl
        · rcases List.mem_cons.mp ha with rfl | ha2
          · exact Bool.eq_false_iff.mpr h
          · exact ih hd (hxs ▸ List.mem_cons_self hd tl) a ha2
        · exact ih l (hxs ▸ List.mem_cons_of_mem hd hl) a ha

theorem mem_intersperse_of_mem {α} (sep : α) :
    ∀ (ls : List α) (x : α), x ∈ ls → x ∈ ls.intersperse sep := by
  intro ls
  induction ls with
  | nil => intro x hx; cases hx
  | cons hd tl ih =>
    intro x hx
    cases tl with
    | nil => simpa [List.intersperse] using hx
    | cons b t =>
      rw [List.intersperse_cons_cons]
      rcases List.mem_cons.mp hx with rfl | hx2
      · exact List.mem_cons_self _ _
      · exact List.mem_cons_of_mem _ (List.mem_cons_of_mem _ (ih x hx2))

theorem mem_intercalate_of_mem {α} (sep : List α) (ls : List (List α)) (l : List α) (a : α)
    (hl : l ∈ ls) (ha : a ∈ l) : a ∈ sep.intercalate ls := by
  rw [List.intercalate]
  exact List.mem_flatten.mpr ⟨l, mem_intersperse_of_mem sep ls l hl, ha⟩

theorem mk_data_eq (s : String) : String.mk s.data = s := rfl

theorem pySplit_pyJoin (l : List String) (hne : l ≠ [])
    (hc : ∀ v ∈ l, ',' ∉ v.data) : pySplit (pyJoin l) = l := by
  unfold pySplit pyJoin
  rw [show (String.mk (List.intercalate [','] (l.map String.data))).data
      = List.intercalate [','] (l.map String.data) from rfl]
  rw [List.splitOn_intercalate]
  · rw [List.map_map]
    have h1 : ((fun cs => String.mk cs) ∘ String.data) = fun s : String => s :=
      funext fun s => rfl
    rw [h1, List.map_id']
  · intro m hm
    rcases List.mem_map.mp hm with ⟨v, hv, rfl⟩
    exact hc v hv
  · simpa using hne

theorem comma_not_mem_pySplit (s : String) (v : String) (hv : ',' ∈ v.data) :
    v ∉ pySplit s := by
  intro hmem
  unfold pySplit at hmem
  rcases List.mem_map.mp hmem with ⟨cs, hcs, rfl⟩
  rw [List.splitOn] at hcs
  have := sep_not_mem_of_mem_splitOnP (· == ',') s.data cs hcs ',' hv
  simp at this

theorem two_le_length_pySplit (s : String) (hs : ',' ∈ s.data) :
    2 ≤ (pySplit s).length := by
  unfold pySplit
  rw [List.length_map, List.splitOn, splitOnP_length]
  have : 0 < s.data.countP (· == ',') :=
    List.countP_pos_iff.mpr ⟨',', hs, by simp⟩
  omega

theorem comma_mem_pyJoin (l : List String) (v : String) (hv : v ∈ l) (hc : ',' ∈ v.data) :
    ',' ∈ (pyJoin l).data :=
  mem_intercalate_of_mem [','] (l.map String.data) v.data ','
    (List.mem_map_of_mem String.data hv) hc

/-! ### Characterizations of the read-tier operations -/

theorem mem_groupByClass_iff (db : DB) (hidden : Int) (g : MediaRow → String)
    (e : String × List String) :
    e ∈ groupByClass db hidden g ↔ ∃ cr ∈ db.classes,
      memberVals db cr hidden g ≠ [] ∧
      e = (cr.label, pySplit (pyJoin (memberVals db cr hidden g))) := by
  unfold groupByClass
  rw [List.mem_filterMap]
  constructor
  · rintro ⟨cr, hcr, hsome⟩
    by_cases h : (memberVals db cr hidden g).isEmpty
    · simp [h] at hsome
    · rw [if_neg h] at hsome
      exact ⟨cr, hcr, by simpa [List.isEmpty_iff] using h, (Option.some_inj.mp hsome).symm⟩
  · rintro ⟨cr, hcr, hne, rfl⟩
    refine ⟨cr, hcr, ?_⟩
    rw [if_neg (by simpa [List.isEmpty_iff] using hne)]

theorem mem_classMembers (db : DB) (cr : ClassRow) (r : MediaRow) :
    r ∈ classMembers db cr ↔ ∃ j ∈ db.junction, j.classID = cr.classID ∧
      db.media.find? (fun m => m.imageID == j.imageID) = some r := by
  unfold classMembers
  rw [List.mem_filterMap]
  constructor
  · rintro ⟨j, hj, hf⟩
    rw [List.mem_filter] at hj
    exact ⟨j, hj.1, by simpa using hj.2, hf⟩
  · rintro ⟨j, hj, hcls, hf⟩
    exact ⟨j, List.mem_filter.mpr ⟨hj, by simpa using hcls⟩, hf⟩

theorem classMembers_sub (db : DB) (cr : ClassRow) :
    ∀ r ∈ classMembers db cr, r ∈ db.media := by
  intro r hr
  rcases (mem_classMembers db cr r).mp hr with ⟨j, _, _, hf⟩
  exact List.mem_of_find?_eq_some hf

theorem mem_memberVals_iff (db : DB) (cr : ClassRow) (hidden : Int)
    (g : MediaRow → String) (v : String) :
    v ∈ memberVals db cr hidden g ↔
      ∃ r ∈ classMembers db cr, r.hidden = hidden ∧ g r = v := by
  unfold memberVals
  rw [List.mem_map]
  constructor
  · rintro ⟨r, hr, rfl⟩
    rw [List.mem_filter] at hr
    exact ⟨r, hr.1, by simpa using hr.2, rfl⟩
  · rintro ⟨r, hr, hh, rfl⟩
    exact ⟨r, List.mem_filter.mpr ⟨hr, by simpa using hh⟩, rfl⟩

theorem memberVals_vals_sub (db : DB) (cr : ClassRow) (hidden : Int)
    (g : MediaRow → String) : ∀ v ∈ memberVals db cr hidden g, ∃ r ∈ db.media, g r = v := by
  intro v hv
  rcases (mem_memberVals_iff db cr hidden g v).mp hv with ⟨r, hr, _, rfl⟩
  exact ⟨r, classMembers_sub db cr r hr, rfl⟩

theorem groupEntry_vals (db : DB) (hidden : Int) (g : MediaRow → String) (cr : ClassRow)
    (hcomma : ∀ r ∈ db.media, ',' ∉ (g r).data)
    (hne : memberVals db cr hidden g ≠ []) :
    pySplit (pyJoin (memberVals db cr hidden g)) = memberVals db cr hidden g := by
  refine pySplit_pyJoin _ hne ?_
  intro v hv
  rcases memberVals_vals_sub db cr hidden g v hv with ⟨r, hr, rfl⟩
  exact hcomma r hr

theorem foldl_extend_eq {α β} (P : α × List β → Bool) :
    ∀ (l : List (α × List β)) (acc : List β),
      l.foldl (fun res grp => if P grp then res ++ grp.2 else res) acc
        = acc ++ (l.filter P).flatMap Prod.snd := by
  intro l
  induction l with
  | nil => intro acc; simp
  | cons grp t ih =>
    intro acc
    by_cases h : P grp <;>
      simp [List.foldl_cons, List.filter_cons, h, ih, List.append_assoc]

theorem tupleByClass_eq_flatMap (db : DB) (cs : List String) (hidden : Int)
    (g : MediaRow → String) :
    tupleByClass db cs hidden g
      = ((groupByClass db hidden g).filter (fun grp => cs.contains grp.1)).flatMap Prod.snd := by
  unfold tupleByClass
  rw [foldl_extend_eq]
  rfl

theorem mem_tupleByClass_iff (db : DB) (cs : List String) (hidden : Int)
    (g : MediaRow → String) (hcomma : ∀ r ∈ db.media, ',' ∉ (g r).data) (v : String) :
    v ∈ tupleByClass db cs hidden g ↔
      ∃ cr ∈ db.classes, cr.label ∈ cs ∧ v ∈ memberVals db cr hidden g := by
  rw [tupleByClass_eq_flatMap, List.mem_flatMap]
  constructor
  · rintro ⟨e, he, hv⟩
    rw [List.mem_filter] at he
    rcases (mem_groupByClass_iff db hidden g e).mp he.1 with ⟨cr, hcr, hne, rfl⟩
    rw [groupEntry_vals db hidden g cr hcomma hne] at hv
    exact ⟨cr, hcr, (contains_iff cs cr.label).mp he.2, hv⟩
  · rintro ⟨cr, hcr, hlab, hv⟩
    have hne : memberVals db cr hidden g ≠ [] := fun h => by rw [h] at hv; cases hv
    refine ⟨(cr.label, pySplit (pyJoin (memberVals db cr hidden g))), ?_, ?_⟩
    · rw [List.mem_filter]
      exact ⟨(mem_groupByClass_iff db hidden g _).mpr ⟨cr, hcr, hne, rfl⟩,
        (contains_iff cs cr.label).mpr hlab⟩
    · rw [groupEntry_vals db hidden g cr hcomma hne]
      exact hv

theorem find?_eq_some_of_nodup_key {α β} [BEq β] [LawfulBEq β] (f : α → β) (l : List α)
    (hn : (l.map f).Nodup) (a : α) (ha : a ∈ l) :
    l.find? (fun x => f x == f a) = some a := by
  induction l with
  | nil => cases ha
  | cons b t ih =>
    rw [List.map_cons, List.nodup_cons] at hn
    rcases List.mem_cons.mp ha with rfl | hat
    · simp [List.find?_cons]
    · have hfb : (f b == f a) = false := by
        refine beq_eq_false_iff_ne.mpr ?_
        intro he
        exact hn.1 (he ▸ List.mem_map_of_mem f hat)
      rw [List.find?_cons, hfb]
      exact ih hn.2 hat

theorem mem_classMembers_iff_of_nodup (db : DB)
    (hids : (db.media.map (fun r => r.imageID)).Nodup) (cr : ClassRow) (r : MediaRow) :
    r ∈ classMembers db cr ↔ r ∈ db.media ∧
      ∃ j ∈ db.junction, j.classID = cr.classID ∧ j.imageID = r.imageID := by
  rw [mem_classMembers]
  constructor
  · rintro ⟨j, hj, hcls, hf⟩
    have hm := List.mem_of_find?_eq_some hf
    have hp := List.find?_some hf
    rw [beq_iff_eq] at hp
    exact ⟨hm, j, hj, hcls, hp.symm⟩
  · rintro ⟨hm, j, hj, hcls, him⟩
    refine ⟨j, hj, hcls, ?_⟩
    rw [him]
    exact find?_eq_some_of_nodup_key (fun r : MediaRow => r.imageID) db.media hids r hm

/-! ### Transport of the read tier across `toggleVisibility` -/

theorem toggleRow_imageID (S : List String) (h : Int) (r : MediaRow) :
    (toggleRow S h r).imageID = r.imageID := by
  unfold toggleRow; split <;> rfl

theorem toggleRow_hash (S : List String) (h : Int) (r : MediaRow) :
    (toggleRow S h r).hash = r.hash := by
  unfold toggleRow; split <;> rfl

theorem toggleRow_path (S : List String) (h : Int) (r : MediaRow) :
    (toggleRow S h r).path = r.path := by
  unfold toggleRow; split <;> rfl

theorem toggleRow_hidden (S : List String) (h : Int) (r : MediaRow) :
    (toggleRow S h r).hidden = if S.contains r.path then h else r.hidden := by
  unfold toggleRow; split <;> rfl

theorem toggleVisibility_classes (db : DB) (S : List String) (h : Int) :
    (toggleVisibility db S h).classes = db.classes := rfl

theorem toggleVisibility_junction (db : DB) (S : List String) (h : Int) :
    (toggleVisibility db S h).junction = db.junction := rfl

theorem classMembers_toggle (db : DB) (S : List String) (h : Int) (cr : ClassRow) :
    classMembers (toggleVisibility db S h) cr
      = (classMembers db cr).map (toggleRow S h) := by
  unfold classMembers
  rw [toggleVisibility_junction]
  have hmedia : (toggleVisibility db S h).media = db.media.map (toggleRow S h) := rfl
  rw [hmedia, List.map_filterMap]
  congr 1
  funext j
  rw [List.find?_map]
  have hpred : ((fun r : MediaRow => r.imageID == j.imageID) ∘ toggleRow S h)
      = fun r : MediaRow => r.imageID == j.imageID := by
    funext m
    simp [Function.comp, toggleRow_imageID]
  rw [hpred]

theorem filtered_groups_congr (cs : List String)
    (F G : ClassRow → Option (String × List String))
    (hF : ∀ cr e, F cr = some e → e.1 = cr.label)
    (hG : ∀ cr e, G cr = some e → e.1 = cr.label)
    (cls : List ClassRow)
    (h : ∀ cr ∈ cls, cs.contains cr.label = true → F cr = G cr) :
    (cls.filterMap F).filter (fun e => cs.contains e.1)
      = (cls.filterMap G).filter (fun e => cs.contains e.1) := by
  induction cls with
  | nil => rfl
  | cons cr t ih =>
    have iht := ih (fun x hx => h x (List.mem_cons_of_mem _ hx))
    rw [List.filterMap_cons, List.filterMap_cons]
    by_cases hin : cs.contains cr.label = true
    · rw [h cr (List.mem_cons_self _ _) hin]
      cases hG' : G cr with
      | none => exact iht
      | some e => rw [List.filter_cons, List.filter_cons, iht]
    · have hfalse : cs.contains cr.label = false := by
        simpa using hin
      cases hF' : F cr with
      | none =>
        cases hG' : G cr with
        | none => exact iht
        | some e =>
          rw [List.filter_cons, hG cr e hG', hfalse]
          exact iht
      | some e =>
        rw [List.filter_cons, hF cr e hF', hfalse]
        cases hG' : G cr with
        | none => exact iht
        | some e2 =>
          rw [List.filter_cons, hG cr e2 hG', hfalse]
          exact iht

/-! ### Semantics of `tupleByClass` resolution -/

theorem belongsTo_of_classMember (db : DB) (cr : ClassRow) (cs : List String) (r : MediaRow)
    (hcr : cr ∈ db.classes) (hlab : cr.label ∈ cs) (hr : r ∈ classMembers db cr) :
    belongsTo db r cs := by
  rcases (mem_classMembers db cr r).mp hr with ⟨j, hj, hcls, hf⟩
  have hp := List.find?_some hf
  rw [beq_iff_eq] at hp
  exact ⟨j, hj, hp.symm, cr, hcr, hcls.symm, hlab⟩

theorem mem_resolution_elim (db : DB) (cs : List String) (hidden : Int)
    (g : MediaRow → String) (hcomma : ∀ r ∈ db.media, ',' ∉ (g r).data) (v : String)
    (hv : v ∈ tupleByClass db cs hidden g) :
    ∃ r ∈ db.media, r.hidden = hidden ∧ g r = v ∧ belongsTo db r cs := by
  rcases (mem_tupleByClass_iff db cs hidden g hcomma v).mp hv with ⟨cr, hcr, hlab, hmv⟩
  rcases (mem_memberVals_iff db cr hidden g v).mp hmv with ⟨r, hrm, hh, rfl⟩
  exact ⟨r, classMembers_sub db cr r hrm, hh, rfl,
    belongsTo_of_classMember db cr cs r hcr hlab hrm⟩

theorem mem_resolution_intro (db : DB) (cs : List String) (hidden : Int)
    (g : MediaRow → String) (hcomma : ∀ r ∈ db.media, ',' ∉ (g r).data)
    (cr : ClassRow) (r : MediaRow)
    (hcr : cr ∈ db.classes) (hlab : cr.label ∈ cs) (hr : r ∈ classMembers db cr)
    (hh : r.hidden = hidden) : g r ∈ tupleByClass db cs hidden g :=
  (mem_tupleByClass_iff db cs hidden g hcomma (g r)).mpr
    ⟨cr, hcr, hlab, (mem_memberVals_iff db cr hidden g (g r)).mpr ⟨r, hr, hh, rfl⟩⟩

theorem mem_resolution_iff_of_nodup (db : DB) (cs : List String) (hidden : Int)
    (g : MediaRow → String) (hcomma : ∀ r ∈ db.media, ',' ∉ (g r).data)
    (hids : (db.media.map (fun r => r.imageID)).Nodup) (v : String) :
    v ∈ tupleByClass db cs hidden g ↔
      ∃ r ∈ db.media, r.hidden = hidden ∧ g r = v ∧ belongsTo db r cs := by
  constructor
  · exact mem_resolution_elim db cs hidden g hcomma v
  · rintro ⟨r, hr, hh, rfl, j, hj, him, cr, hcr, hcls, hlab⟩
    refine mem_resolution_intro db cs hidden g hcomma cr r hcr hlab ?_ hh
    exact (mem_classMembers_iff_of_nodup db hids cr r).mpr ⟨hr, j, hj, hcls.symm, him⟩

theorem resolved_hidden_eq (db : DB) (cs : List String) (hidden : Int)
    (hcomma : ∀ r ∈ db.media, ',' ∉ r.path.data)
    (hpaths : (db.media.map MediaRow.path).Nodup) :
    ∀ r ∈ db.media, r.path ∈ tupleByClass db cs hidden MediaRow.path → r.hidden = hidden := by
  intro r hr hmem
  rcases mem_resolution_elim db cs hidden MediaRow.path hcomma r.path hmem with
    ⟨r0, hr0, hh0, hpath, _⟩
  have heq : r0 = r := List.inj_on_of_nodup_map hpaths hr0 hr hpath
  rw [← heq]
  exact hh0

/-! ### The hide/unhide round trip -/

theorem memberVals_after_hide (db : DB) (cs : List String) (cr : ClassRow)
    (hcomma : ∀ r ∈ db.media, ',' ∉ r.path.data)
    (hvis : ∀ r ∈ db.media, belongsTo db r cs → r.hidden = 0)
    (hcr : cr ∈ db.classes) (hlab : cr.label ∈ cs) :
    memberVals (hideByClass db cs) cr 1 MediaRow.path
      = memberVals db cr 0 MediaRow.path := by
  have hmem0 : ∀ m ∈ classMembers db cr, m.hidden = 0 := fun m hm =>
    hvis m (classMembers_sub db cr m hm)
      (belongsTo_of_classMember db cr cs m hcr hlab hm)
  have hmemS : ∀ m ∈ classMembers db cr,
      m.path ∈ tupleByClass db cs 0 MediaRow.path := fun m hm =>
    mem_resolution_intro db cs 0 MediaRow.path hcomma cr m hcr hlab hm (hmem0 m hm)
  unfold memberVals
  rw [show hideByClass db cs
      = toggleVisibility db (tupleByClass db cs 0 MediaRow.path) 1 from rfl,
    classMembers_toggle, List.filter_map, List.map_map]
  have hf1 : (classMembers db cr).filter
      ((fun r : MediaRow => r.hidden == 1) ∘ toggleRow (tupleByClass db cs 0 MediaRow.path) 1)
      = classMembers db cr :=
    List.filter_eq_self.mpr (fun m hm => by
      simp [Function.comp, toggleRow_hidden, hmemS m hm])
  have hf0 : (classMembers db cr).filter (fun r : MediaRow => r.hidden == 0)
      = classMembers db cr :=
    List.filter_eq_self.mpr (fun m hm => by simp [hmem0 m hm])
  rw [hf1, hf0]
  exact List.map_congr_left (fun m _ =>
    toggleRow_path (tupleByClass db cs 0 MediaRow.path) 1 m)

theorem resolution_after_hide (db : DB) (cs : List String)
    (hcomma : ∀ r ∈ db.media, ',' ∉ r.path.data)
    (hvis : ∀ r ∈ db.media, belongsTo db r cs → r.hidden = 0) :
    tupleByClass (hideByClass db cs) cs 1 MediaRow.path
      = tupleByClass db cs 0 MediaRow.path := by
  rw [tupleByClass_eq_flatMap, tupleByClass_eq_flatMap]
  congr 1
  unfold groupByClass
  rw [show (hideByClass db cs).classes = db.classes from rfl]
  apply filtered_groups_congr cs
  · intro cr e he
    by_cases h : (memberVals (hideByClass db cs) cr 1 MediaRow.path).isEmpty
    · simp [h] at he
    · rw [if_neg h] at he
      exact congrArg Prod.fst (Option.some_inj.mp he).symm
  · intro cr e he
    by_cases h : (memberVals db cr 0 MediaRow.path).isEmpty
    · simp [h] at he
    · rw [if_neg h] at he
      exact congrArg Prod.fst (Option.some_inj.mp he).symm
  · intro cr hcr hin
    rw [memberVals_after_hide db cs cr hcomma hvis hcr ((contains_iff _ _).mp hin)]

theorem toggle_toggle_restore (db : DB) (S : List String) (h1 : Int)
    (hzero : ∀ r ∈ db.media, S.contains r.path = true → r.hidden = 0) :
    toggleVisibility (toggleVisibility db S h1) S 0 = db := by
  obtain ⟨m, c, j⟩ := db
  unfold toggleVisibility
  simp only [DB.mk.injEq, and_true]
  rw [List.map_map]
  have step : ∀ r ∈ m, (toggleRow S 0 ∘ toggleRow S h1) r = r := by
    intro r hr
    rw [Function.comp_apply]
    by_cases hc : S.contains r.path = true
    · have hh : r.hidden = 0 := hzero r hr hc
      have e1 : toggleRow S h1 r = { r with hidden := h1 } := by
        unfold toggleRow; rw [if_pos hc]
      have e2 : toggleRow S 0 { r with hidden := h1 } = { r with hidden := 0 } := by
        unfold toggleRow
        rw [show ({ r with hidden := h1 } : MediaRow).path = r.path from rfl, if_pos hc]
      rw [e1, e2]
      cases r
      simp only [MediaRow.mk.injEq, true_and]
      exact hh.symm
    · have e1 : toggleRow S h1 r = r := by
        unfold toggleRow; rw [if_neg hc]
      have e2 : toggleRow S 0 r = r := by
        unfold toggleRow; rw [if_neg hc]
      rw [e1, e2]
  rw [List.map_congr_left step, List.map_id']

/-! ### Junction uniqueness invariant under insert -/

theorem nodup_append_singleton {α} (l : List α) (a : α) (h : l.Nodup) (ha : a ∉ l) :
    (l ++ [a]).Nodup :=
  List.nodup_append.mpr ⟨h, List.nodup_singleton a, List.disjoint_singleton.mpr ha⟩

theorem pair_not_mem_of_any_false (junction : List JunctionRow) (imageID cid : Nat)
    (hany : ¬junction.any (fun j => j.imageID == imageID && j.classID == cid) = true) :
    (imageID, cid) ∉ junction.map (fun j => (j.imageID, j.classID)) := by
  intro hmem
  rcases List.mem_map.mp hmem with ⟨j, hj, hpair⟩
  apply hany
  rw [List.any_eq_true]
  refine ⟨j, hj, ?_⟩
  have h1 : j.imageID = imageID := congrArg Prod.fst hpair
  have h2 : j.classID = cid := congrArg Prod.snd hpair
  simp [h1, h2]

theorem insertClassTag_junction_nodup (imageID : Nat) (db : DB) (className : String)
    (h : (db.junction.map (fun j => (j.imageID, j.classID))).Nodup) :
    ((insertClassTag imageID db className).junction.map
      (fun j => (j.imageID, j.classID))).Nodup := by
  unfold insertClassTag
  cases hfind : db.classes.find? (fun c => c.label == className) with
  | some c =>
    show (List.map (fun j : JunctionRow => (j.imageID, j.classID))
      (if (db.junction.any fun j : JunctionRow =>
           j.imageID == imageID && j.classID == c.classID) = true
       then db
       else { db with
              junction := db.junction ++ [(⟨imageID, c.classID⟩ : JunctionRow)] }).junction).Nodup
    by_cases hany : (db.junction.any
        fun j => j.imageID == imageID && j.classID == c.classID) = true
    · rw [if_pos hany]
      exact h
    · rw [if_neg hany]
      show (List.map (fun j : JunctionRow => (j.imageID, j.classID))
        (db.junction ++ [(⟨imageID, c.classID⟩ : JunctionRow)])).Nodup
      rw [List.map_append]
      exact nodup_append_singleton _ _ h
        (pair_not_mem_of_any_false db.junction imageID c.classID hany)
  | none =>
    show (List.map (fun j : JunctionRow => (j.imageID, j.classID))
      (if (db.junction.any fun j : JunctionRow => j.imageID == imageID &&
            j.classID == nextID (db.classes.map (fun c : ClassRow => c.classID))) = true
       then { db with classes := db.classes ++
              [(⟨nextID (db.classes.map (fun c : ClassRow => c.classID)), className⟩ :
                ClassRow)] }
       else { db with
              classes := db.classes ++
                [(⟨nextID (db.classes.map (fun c : ClassRow => c.classID)), className⟩ :
                  ClassRow)],
              junction := db.junction ++
                [(⟨imageID, nextID (db.classes.map (fun c : ClassRow => c.classID))⟩ :
                  JunctionRow)] }).junction).Nodup
    by_cases hany : (db.junction.any fun j => j.imageID == imageID &&
        j.classID == nextID (db.classes.map (fun c => c.classID))) = true
    · rw [if_pos hany]
      exact h
    · rw [if_neg hany]
      show (List.map (fun j : JunctionRow => (j.imageID, j.classID))
        (db.junction ++
          [(⟨imageID, nextID (db.classes.map (fun c : ClassRow => c.classID))⟩ :
            JunctionRow)])).Nodup
      rw [List.map_append]
      exact nodup_append_singleton _ _ h
        (pair_not_mem_of_any_false db.junction imageID _ hany)

theorem foldl_insertClassTag_nodup (imageID : Nat) (cls : List String) (db : DB)
    (h : (db.junction.map (fun j => (j.imageID, j.classID))).Nodup) :
    (((cls.foldl (insertClassTag imageID) db).junction).map
      (fun j => (j.imageID, j.classID))).Nodup := by
  induction cls generalizing db with
  | nil => exact h
  | cons c t ih => exact ih _ (insertClassTag_junction_nodup imageID db c h)

/-! ### Claim theorems -/

/-- The state after `insert(h, p1, [c])` on an empty catalog, used for the
claims about re-insertion of an existing hash. -/
def dbC1 : DB := ⟨[⟨1, "h", "/img/p1.png", 0⟩], [⟨1, "c"⟩], [⟨1, 1⟩]⟩

/-- Claim C1: calling `insertIntoDB` with a hash already in the catalog, a
new path, and any class list updates the matching MediaItem's `path` and
leaves everything else (CLASS, JUNCTION, and every other MEDIA column)
unchanged; in particular `insert(h, p1, [c])` followed by
`insert(h, p2, [])` makes grouping by class return `p2` under `c`. -/
theorem insertIntoDB_existing_hash_updates_path :
    (∀ (db : DB) (file : String) (imgClass : List String) (imgHash : String),
      hashExist db imgHash = true →
        (insertIntoDB db file imgClass imgHash).classes = db.classes ∧
        (insertIntoDB db file imgClass imgHash).junction = db.junction ∧
        (insertIntoDB db file imgClass imgHash).media.length = db.media.length ∧
        ∀ i : Nat,
          ((insertIntoDB db file imgClass imgHash).media[i]?).map
              (fun r => (r.imageID, r.hash, r.hidden))
            = (db.media[i]?).map (fun r => (r.imageID, r.hash, r.hidden)) ∧
          ((insertIntoDB db file imgClass imgHash).media[i]?).map MediaRow.path
            = (db.media[i]?).map (fun r => if r.hash = imgHash then file else r.path)) ∧
    groupByClass (insertIntoDB dbC1 "/img/p2.png" [] "h") 0 MediaRow.path
      = [("c", ["/img/p2.png"])] := by
  constructor
  · intro db file imgClass imgHash hh
    unfold insertIntoDB
    rw [if_pos hh]
    refine ⟨rfl, rfl, List.length_map _ _, ?_⟩
    intro i
    constructor
    · rw [show (DB.mk (db.media.map (fun r =>
          if r.hash == imgHash then { r with path := file } else r)) db.classes
          db.junction).media = db.media.map (fun r =>
          if r.hash == imgHash then { r with path := file } else r) from rfl]
      rw [List.getElem?_map, Option.map_map]
      cases db.media[i]? with
      | none => rfl
      | some r =>
        simp only [Option.map_some', Function.comp_apply]
        by_cases h : r.hash == imgHash <;> simp [h]
    · rw [show (DB.mk (db.media.map (fun r =>
          if r.hash == imgHash then { r with path := file } else r)) db.classes
          db.junction).media = db.media.map (fun r =>
          if r.hash == imgHash then { r with path := file } else r) from rfl]
      rw [List.getElem?_map, Option.map_map]
      cases db.media[i]? with
      | none => rfl
      | some r =>
        simp only [Option.map_some', Function.comp_apply]
        by_cases h : r.hash = imgHash
        · rw [if_pos h, if_pos (by simpa using h)]
        · rw [if_neg h, if_neg (by simpa using h)]
  · decide

/-- Witness for C1: at the concrete state `dbC1` (hash `"h"` present), the
re-insert with path `"/img/p2.png"` leaves the junction unchanged and
rewrites the stored path. -/
theorem insertIntoDB_existing_hash_updates_path_witness :
    (insertIntoDB dbC1 "/img/p2.png" ["x", "y"] "h").junction = dbC1.junction ∧
    ((insertIntoDB dbC1 "/img/p2.png" ["x", "y"] "h").media[0]?).map MediaRow.path
      = some "/img/p2.png" := by
  have h := insertIntoDB_existing_hash_updates_path.1 dbC1 "/img/p2.png" ["x", "y"] "h"
    (by decide)
  refine ⟨h.2.1, ?_⟩
  rw [(h.2.2.2 0).2]
  decide

/-- A catalog whose only MediaItem is hidden and belongs to class `"c"`,
used to refute claim C2. -/
def dbC2 : DB := ⟨[⟨1, "h1", "/a.png", 1⟩], [⟨1, "c"⟩], [⟨1, 1⟩]⟩

/-- Counterexample to claim C2: `deleteByClass` on `["c"]` leaves the
hidden member of class `"c"` in place and passes the empty tuple to
`deleteFile`, because `tupleByClass` is called with its default
`hidden=0`. -/
theorem deleteByClass_misses_hidden_counterexample :
    (∃ r ∈ dbC2.media, r.hidden = 1 ∧ belongsTo dbC2 r ["c"]) ∧
    deleteByClass dbC2 ["c"] = (dbC2, []) := by
  constructor
  · exact ⟨⟨1, "h1", "/a.png", 1⟩, by decide, rfl, ⟨1, 1⟩, by decide, rfl,
      ⟨1, "c"⟩, by decide, rfl, by decide⟩
  · decide

/-- Amended claim C2: `deleteByClass` resolves its targets with
`tupleByClass`'s default visibility filter `hidden=0`, so — provided no
two MediaItems share a path, no path contains a comma, and imageIDs are
unique — it removes exactly the currently *visible* members of the given
classes (hidden members survive); the resolved visible-member paths are
what is passed to the external `deleteFile` collaborator.  The side
conditions are necessary: a hidden item sharing a visible member's path
is deleted with it by the path-based `DELETE`, and a comma-containing
member path is mangled by the `GROUP_CONCAT`/`split(',')` resolution. -/
theorem deleteByClass_removes_exactly_visible_members (db : DB) (cs : List String)
    (hcomma : ∀ r ∈ db.media, ',' ∉ r.path.data)
    (hpaths : (db.media.map MediaRow.path).Nodup)
    (hids : (db.media.map (fun r => r.imageID)).Nodup) :
    (∀ r, r ∈ (deleteByClass db cs).1.media ↔
      r ∈ db.media ∧ ¬(r.hidden = 0 ∧ belongsTo db r cs)) ∧
    (deleteByClass db cs).2 = tupleByClass db cs 0 MediaRow.path ∧
    (deleteByClass db cs).1.classes = db.classes ∧
    (deleteByClass db cs).1.junction = db.junction := by
  refine ⟨?_, rfl, rfl, rfl⟩
  intro r
  have hmedia : (deleteByClass db cs).1.media
      = db.media.filter (fun r =>
          !((tupleByClass db cs 0 MediaRow.path).contains r.path)) := rfl
  rw [hmedia, List.mem_filter]
  constructor
  · rintro ⟨hr, hb⟩
    refine ⟨hr, ?_⟩
    rintro ⟨hh, hbel⟩
    have : r.path ∈ tupleByClass db cs 0 MediaRow.path :=
      (mem_resolution_iff_of_nodup db cs 0 MediaRow.path hcomma hids r.path).mpr
        ⟨r, hr, hh, rfl, hbel⟩
    simp [this] at hb
  · rintro ⟨hr, hnot⟩
    refine ⟨hr, ?_⟩
    have : r.path ∉ tupleByClass db cs 0 MediaRow.path := by
      intro hmem
      rcases mem_resolution_elim db cs 0 MediaRow.path hcomma r.path hmem with
        ⟨r0, hr0, hh0, hp0, hbel0⟩
      have heq : r0 = r := List.inj_on_of_nodup_map hpaths hr0 hr hp0
      rw [heq] at hh0 hbel0
      exact hnot ⟨hh0, hbel0⟩
    simp [this]

/-- Witness for the amended C2 at a concrete catalog: one visible and one
hidden member of class `"c"`; only the visible one is deleted. -/
theorem deleteByClass_removes_exactly_visible_members_witness :
    (⟨2, "h2", "/b.png", 1⟩ : MediaRow) ∈
      (deleteByClass ⟨[⟨1, "h1", "/a.png", 0⟩, ⟨2, "h2", "/b.png", 1⟩],
        [⟨1, "c"⟩], [⟨1, 1⟩, ⟨2, 1⟩]⟩ ["c"]).1.media := by
  refine ((deleteByClass_removes_exactly_visible_members
      ⟨[⟨1, "h1", "/a.png", 0⟩, ⟨2, "h2", "/b.png", 1⟩], [⟨1, "c"⟩], [⟨1, 1⟩, ⟨2, 1⟩]⟩
      ["c"] (by decide) (by decide) (by decide)).1 _).mpr ?_
  refine ⟨by decide, ?_⟩
  rintro ⟨hh, -⟩
  cases hh

/-- A catalog with one visible item belonging to the two classes `"c1"`
and `"c2"`, used to refute claim C3. -/
def dbC3 : DB := ⟨[⟨1, "h1", "/p.png", 0⟩], [⟨1, "c1"⟩, ⟨2, "c2"⟩], [⟨1, 1⟩, ⟨1, 2⟩]⟩

/-- Counterexample to claim C3: an item belonging to both requested
classes has its path returned twice by `tupleByClass` — the result is not
deduplicated. -/
theorem tupleByClass_duplicate_counterexample :
    tupleByClass dbC3 ["c1", "c2"] 0 MediaRow.path = ["/p.png", "/p.png"] ∧
    ¬(tupleByClass dbC3 ["c1", "c2"] 0 MediaRow.path).Nodup := by
  constructor
  · decide
  · decide

/-- Amended claim C3: `tupleByClass` concatenates the per-class groups of
the requested labels without cross-class deduplication, so a value can
occur once for each requested class its item belongs to; the *set* of
returned values is exactly the projected values of the items with the
requested visibility that belong to at least one requested class
(assuming comma-free projected values and unique imageIDs). -/
theorem tupleByClass_values_characterization (db : DB) (cs : List String) (hidden : Int)
    (g : MediaRow → String) (hcomma : ∀ r ∈ db.media, ',' ∉ (g r).data)
    (hids : (db.media.map (fun r => r.imageID)).Nodup) (v : String) :
    v ∈ tupleByClass db cs hidden g ↔
      ∃ r ∈ db.media, r.hidden = hidden ∧ g r = v ∧ belongsTo db r cs :=
  mem_resolution_iff_of_nodup db cs hidden g hcomma hids v

/-- Witness for the amended C3: at `dbC3`, `"/p.png"` is returned because
its item is a visible member of `"c1"`. -/
theorem tupleByClass_values_characterization_witness :
    "/p.png" ∈ tupleByClass dbC3 ["c1", "c2"] 0 MediaRow.path :=
  (tupleByClass_values_characterization dbC3 ["c1", "c2"] 0 MediaRow.path
      (by decide) (by decide) "/p.png").mpr
    ⟨⟨1, "h1", "/p.png", 0⟩, by decide, rfl, rfl, ⟨1, 1⟩, by decide, rfl,
      ⟨1, "c1"⟩, by decide, rfl, by decide⟩

/-- Two visible/hidden MediaItems sharing the same path, the visible one a
member of class `"c"`, used to refute claim C4. -/
def dbC4 : DB :=
  ⟨[⟨1, "hA", "/p.png", 0⟩, ⟨2, "hB", "/p.png", 1⟩], [⟨1, "c"⟩], [⟨1, 1⟩]⟩

/-- Counterexample to claim C4: in `dbC4` every member of class `"c"` is
visible, yet `hideByClass` then `unhideByClass` does not restore the
original visible set — the hidden non-member sharing the member's path is
left visible (the per-path `UPDATE` hits it both times). -/
theorem hide_unhide_roundtrip_counterexample :
    (∀ r ∈ dbC4.media, belongsTo dbC4 r ["c"] → r.hidden = 0) ∧
    unhideByClass (hideByClass dbC4 ["c"]) ["c"] ≠ dbC4 ∧
    ((unhideByClass (hideByClass dbC4 ["c"]) ["c"]).media.filter
        (fun r => r.hidden == 0)).length
      ≠ (dbC4.media.filter (fun r => r.hidden == 0)).length := by
  refine ⟨?_, by decide, by decide⟩
  intro r hr hb
  rcases hb with ⟨j, hj, him, cr, hcr, hcls, hlab⟩
  have hj1 : j = ⟨1, 1⟩ := by
    rcases List.mem_singleton.mp hj with rfl; rfl
  rcases List.mem_cons.mp hr with rfl | hr2
  · rfl
  · rcases List.mem_singleton.mp hr2 with rfl
    rw [hj1] at him
    cases him

/-- Amended claim C4: when additionally no two MediaItems share a path and
no path contains a comma, `hideByClass` followed by `unhideByClass` on the
same classes restores the catalog exactly (hence the original visible
set), provided every member of those classes was visible. -/
theorem hideByClass_unhideByClass_roundtrip (db : DB) (cs : List String)
    (hpaths : (db.media.map MediaRow.path).Nodup)
    (hcomma : ∀ r ∈ db.media, ',' ∉ r.path.data)
    (hvis : ∀ r ∈ db.media, belongsTo db r cs → r.hidden = 0) :
    unhideByClass (hideByClass db cs) cs = db := by
  unfold unhideByClass
  rw [resolution_after_hide db cs hcomma hvis]
  rw [show hideByClass db cs
      = toggleVisibility db (tupleByClass db cs 0 MediaRow.path) 1 from rfl]
  exact toggle_toggle_restore db _ 1 (fun r hr hc =>
    resolved_hidden_eq db cs 0 hcomma hpaths r hr ((contains_iff _ _).mp hc))

/-- Witness for the amended C4: distinct comma-free paths, the member of
`"c"` visible, an unrelated hidden item; the round trip is the identity. -/
theorem hideByClass_unhideByClass_roundtrip_witness :
    unhideByClass
        (hideByClass ⟨[⟨1, "hA", "/a.png", 0⟩, ⟨2, "hB", "/b.png", 1⟩],
          [⟨1, "c"⟩], [⟨1, 1⟩]⟩ ["c"]) ["c"]
      = ⟨[⟨1, "hA", "/a.png", 0⟩, ⟨2, "hB", "/b.png", 1⟩], [⟨1, "c"⟩], [⟨1, 1⟩]⟩ := by
  refine hideByClass_unhideByClass_roundtrip _ ["c"] (by decide) (by decide) ?_
  intro r hr hb
  rcases hb with ⟨j, hj, him, cr, hcr, hcls, hlab⟩
  rcases List.mem_singleton.mp hj with rfl
  rcases List.mem_cons.mp hr with rfl | hr2
  · rfl
  · rcases List.mem_singleton.mp hr2 with rfl
    cases him

/-- The spec's reconciliation scenario: catalog paths `{A, B, C}`. -/
def dbC5 : DB := ⟨[⟨1, "hA", "A", 0⟩, ⟨2, "hB", "B", 0⟩, ⟨3, "hC", "C", 0⟩], [], []⟩

/-- Claim C5: `cleanDB` deletes exactly the MediaItems whose path the
`pathExist` collaborator reports as absent, touches nothing else, performs
no mutation at all (and no `deleteFile` call) when every path exists, and
batches exactly the stale paths into the single `deleteFile` call; with
paths `{A, B, C}` where only `A` exists it removes exactly `{B, C}`. -/
theorem cleanDB_reconciliation :
    (∀ (pe : String → Bool) (db : DB),
      (cleanDB pe db).1.media = db.media.filter (fun r => pe r.path) ∧
      (cleanDB pe db).1.classes = db.classes ∧
      (cleanDB pe db).1.junction = db.junction ∧
      ((∀ r ∈ db.media, pe r.path = true) → cleanDB pe db = (db, none)) ∧
      (∀ ps, (cleanDB pe db).2 = some ps →
        ∀ p, p ∈ ps ↔ ((∃ r ∈ db.media, r.path = p) ∧ pe p = false))) ∧
    cleanDB (fun p => p == "A") dbC5 = (⟨[⟨1, "hA", "A", 0⟩], [], []⟩, some ["B", "C"]) := by
  constructor
  · intro pe db
    by_cases hst : ((db.media.map (fun r => r.path)).filter (fun p => !pe p)).isEmpty
    · have hres : cleanDB pe db = (db, none) := by
        unfold cleanDB
        rw [if_pos hst]
      have hall : ∀ r ∈ db.media, pe r.path = true := by
        intro r hr
        have := List.filter_eq_nil_iff.mp (List.isEmpty_iff.mp hst) r.path
          (List.mem_map_of_mem _ hr)
        simpa using this
      refine ⟨?_, by rw [hres], by rw [hres], fun _ => hres, ?_⟩
      · rw [hres]
        exact (List.filter_eq_self.mpr hall).symm
      · intro ps hps
        rw [hres] at hps
        cases hps
    · have hres : cleanDB pe db
          = ((deleteFromDB db ((db.media.map (fun r => r.path)).filter (fun p => !pe p))).1,
             some ((db.media.map (fun r => r.path)).filter (fun p => !pe p))) := by
        unfold cleanDB
        rw [if_neg hst]
        rfl
      refine ⟨?_, by rw [hres]; rfl, by rw [hres]; rfl, ?_, ?_⟩
      · rw [hres]
        show db.media.filter _ = db.media.filter _
        refine List.filter_congr ?_
        intro r hr
        by_cases hpe : pe r.path = true
        · have hnm : r.path ∉ (db.media.map (fun r => r.path)).filter (fun p => !pe p) := by
            intro hmem
            have := (List.mem_filter.mp hmem).2
            simp [hpe] at this
          simp [hnm, hpe]
        · have hm : r.path ∈ (db.media.map (fun r => r.path)).filter (fun p => !pe p) :=
            List.mem_filter.mpr ⟨List.mem_map_of_mem _ hr, by simp [hpe]⟩
          have hpe' : pe r.path = false := by simpa using hpe
          simp [hm, hpe']
      · intro hall
        exfalso
        have : (db.media.map (fun r => r.path)).filter (fun p => !pe p) = [] := by
          rw [List.filter_eq_nil_iff]
          intro p hp
          rcases List.mem_map.mp hp with ⟨r, hr, rfl⟩
          simp [hall r hr]
        rw [this] at hst
        exact hst rfl
      · intro ps hps p
        rw [hres] at hps
        have h2 : ps = (db.media.map (fun r => r.path)).filter (fun q => !pe q) :=
          (Option.some_inj.mp hps).symm
        subst h2
        constructor
        · intro hp
          have h3 := List.mem_filter.mp hp
          rcases List.mem_map.mp h3.1 with ⟨r, hr, rfl⟩
          exact ⟨⟨r, hr, rfl⟩, by simpa using h3.2⟩
        · rintro ⟨⟨r, hr, rfl⟩, hpe⟩
          exact List.mem_filter.mpr ⟨List.mem_map_of_mem _ hr, by simp [hpe]⟩
  · decide

/-- Witness for C5: with an always-true existence probe, reconciliation of
`dbC5` performs no mutation and no file deletion. -/
theorem cleanDB_reconciliation_witness :
    cleanDB (fun _ => true) dbC5 = (dbC5, none) :=
  (cleanDB_reconciliation.1 (fun _ => true) dbC5).2.2.2.1 (fun _ _ => rfl)

/-- Claim C6: `toggleVisibility` sets `hidden` to the target value on
exactly the rows whose path is in the given set; other rows and the other
columns (`imageID`, `hash`, `path`) of affected rows are unchanged, the
CLASS and JUNCTION relations are untouched, and paths absent from the
catalog are silently ignored. -/
theorem toggleVisibility_frame (db : DB) (paths : List String) (hv : Int) :
    (toggleVisibility db paths hv).classes = db.classes ∧
    (toggleVisibility db paths hv).junction = db.junction ∧
    (toggleVisibility db paths hv).media.length = db.media.length ∧
    ∀ i : Nat,
      ((toggleVisibility db paths hv).media[i]?).map (fun r => (r.imageID, r.hash, r.path))
        = (db.media[i]?).map (fun r => (r.imageID, r.hash, r.path)) ∧
      ((toggleVisibility db paths hv).media[i]?).map MediaRow.hidden
        = (db.media[i]?).map (fun r => if r.path ∈ paths then hv else r.hidden) := by
  refine ⟨rfl, rfl, List.length_map _ _, ?_⟩
  intro i
  have hmedia : (toggleVisibility db paths hv).media = db.media.map (toggleRow paths hv) :=
    rfl
  constructor
  · rw [hmedia, List.getElem?_map, Option.map_map]
    cases db.media[i]? with
    | none => rfl
    | some r =>
      simp only [Option.map_some', Function.comp_apply]
      rw [toggleRow_imageID, toggleRow_hash, toggleRow_path]
  · rw [hmedia, List.getElem?_map, Option.map_map]
    cases db.media[i]? with
    | none => rfl
    | some r =>
      simp only [Option.map_some', Function.comp_apply]
      rw [toggleRow_hidden]
      by_cases hm : r.path ∈ paths
      · rw [if_pos ((contains_iff _ _).mpr hm), if_pos hm]
      · rw [if_neg (fun hc => hm ((contains_iff _ _).mp hc)), if_neg hm]

/-- Claim C7: inserting two distinct hashes with the same class label
yields exactly one CLASS row and two JUNCTION rows; listing the same label
twice in one insert adds the association only once (`INSERT OR IGNORE`),
and `insertIntoDB` preserves the invariant of at most one JUNCTION row per
`(imageID, classID)` pair. -/
theorem insertIntoDB_junction_invariant :
    ((insertIntoDB (insertIntoDB emptyDB "/img/1.png" ["cat"] "h1")
        "/img/2.png" ["cat"] "h2").classes = [⟨1, "cat"⟩] ∧
     (insertIntoDB (insertIntoDB emptyDB "/img/1.png" ["cat"] "h1")
        "/img/2.png" ["cat"] "h2").junction = [⟨1, 1⟩, ⟨2, 1⟩]) ∧
    (insertIntoDB ⟨[⟨1, "h", "/a.png", 0⟩], [⟨1, "c"⟩], [⟨1, 1⟩]⟩
        "/b.png" ["c", "c"] "h2").junction = [⟨1, 1⟩, ⟨2, 1⟩] ∧
    (∀ (db : DB) (file : String) (imgClass : List String) (imgHash : String),
      (db.junction.map (fun j => (j.imageID, j.classID))).Nodup →
      ((insertIntoDB db file imgClass imgHash).junction.map
          (fun j => (j.imageID, j.classID))).Nodup) := by
  refine ⟨⟨by decide, by decide⟩, by decide, ?_⟩
  intro db file imgClass imgHash hnd
  unfold insertIntoDB
  by_cases hh : hashExist db imgHash = true
  · rw [if_pos hh]
    exact hnd
  · rw [if_neg hh]
    exact foldl_insertClassTag_nodup _ imgClass _ hnd

/-- Witness for C7: the invariant-preservation part applied at a concrete
catalog that already has a junction row. -/
theorem insertIntoDB_junction_invariant_witness :
    ((insertIntoDB ⟨[⟨1, "h", "/a.png", 0⟩], [⟨1, "c"⟩], [⟨1, 1⟩]⟩
        "/b.png" ["c"] "h2").junction.map (fun j => (j.imageID, j.classID))).Nodup :=
  insertIntoDB_junction_invariant.2.2
    ⟨[⟨1, "h", "/a.png", 0⟩], [⟨1, "c"⟩], [⟨1, 1⟩]⟩ "/b.png" ["c"] "h2" (by decide)

/-- Claim C8: `tupleByClass` applied to a class label with zero member
items (in particular a label that does not exist in the CLASS relation)
returns the empty sequence; the operation is a total function, so no
error is possible. -/
theorem tupleByClass_empty_class (db : DB) (c : String) (hidden : Int)
    (g : MediaRow → String)
    (h : ∀ cr ∈ db.classes, cr.label = c → ∀ j ∈ db.junction, j.classID ≠ cr.classID) :
    tupleByClass db [c] hidden g = [] := by
  rw [tupleByClass_eq_flatMap]
  have hfil : (groupByClass db hidden g).filter (fun grp => [c].contains grp.1) = [] := by
    rw [List.filter_eq_nil_iff]
    intro e he hc
    rcases (mem_groupByClass_iff db hidden g e).mp he with ⟨cr, hcr, hne, rfl⟩
    have hlab : cr.label = c := by simpa using (contains_iff [c] cr.label).mp hc
    apply hne
    have hjf : db.junction.filter (fun j => j.classID == cr.classID) = [] := by
      rw [List.filter_eq_nil_iff]
      intro j hj hbeq
      exact h cr hcr hlab j hj (by simpa using hbeq)
    unfold memberVals classMembers
    rw [hjf]
    rfl
  rw [hfil]
  rfl

/-- Witness for C8: a catalog holding one item and a memberless class
label `"empty"`; resolving that label yields the empty tuple. -/
theorem tupleByClass_empty_class_witness :
    tupleByClass ⟨[⟨1, "h", "/a.png", 0⟩], [⟨1, "empty"⟩], []⟩ ["empty"] 0
        MediaRow.path = [] :=
  tupleByClass_empty_class ⟨[⟨1, "h", "/a.png", 0⟩], [⟨1, "empty"⟩], []⟩ "empty" 0
    MediaRow.path (fun _ _ _ j hj => absurd hj (List.not_mem_nil j))

/-- A catalog whose single visible item has the comma-containing path
`"a,b"` and belongs to class `"c"`. -/
def dbC9 : DB := ⟨[⟨1, "h", "a,b", 0⟩], [⟨1, "c"⟩], [⟨1, 1⟩]⟩

/-- Claim C9: `groupByClass` pipes the grouped values through
`GROUP_CONCAT` and `split(',')`, so a projected value containing a comma
is returned split at the commas into several separate entries (the stored
value itself never appears, and the group's tuple has at least two
entries); values are reproduced faithfully exactly when no projected
value contains a comma.  Concretely, the stored path `"a,b"` comes back
as the two entries `"a"` and `"b"`. -/
theorem groupByClass_comma_splitting :
    (∀ (db : DB) (hidden : Int) (g : MediaRow → String) (cr : ClassRow) (v : String),
      cr ∈ db.classes → v ∈ memberVals db cr hidden g → ',' ∈ v.data →
        (cr.label, pySplit (pyJoin (memberVals db cr hidden g))) ∈ groupByClass db hidden g ∧
        v ∉ pySplit (pyJoin (memberVals db cr hidden g)) ∧
        2 ≤ (pySplit (pyJoin (memberVals db cr hidden g))).length) ∧
    (∀ (db : DB) (hidden : Int) (g : MediaRow → String) (cr : ClassRow),
      cr ∈ db.classes → (∀ r ∈ db.media, ',' ∉ (g r).data) →
      memberVals db cr hidden g ≠ [] →
        (cr.label, memberVals db cr hidden g) ∈ groupByClass db hidden g) ∧
    groupByClass dbC9 0 MediaRow.path = [("c", ["a", "b"])] := by
  refine ⟨?_, ?_, by decide⟩
  · intro db hidden g cr v hcr hv hcomma
    have hne : memberVals db cr hidden g ≠ [] := fun h => by rw [h] at hv; cases hv
    refine ⟨(mem_groupByClass_iff db hidden g _).mpr ⟨cr, hcr, hne, rfl⟩, ?_, ?_⟩
    · exact comma_not_mem_pySplit (pyJoin (memberVals db cr hidden g)) v hcomma
    · exact two_le_length_pySplit (pyJoin (memberVals db cr hidden g))
        (comma_mem_pyJoin (memberVals db cr hidden g) v hv hcomma)
  · intro db hidden g cr hcr hcomma hne
    have := groupEntry_vals db hidden g cr hcomma hne
    rw [← this]
    exact (mem_groupByClass_iff db hidden g _).mpr ⟨cr, hcr, hne, rfl⟩

/-- Witness for C9: in `dbC9` the stored path `"a,b"` is a member value of
class `"c"` yet does not occur in the published group tuple. -/
theorem groupByClass_comma_splitting_witness :
    "a,b" ∉ pySplit (pyJoin (memberVals dbC9 ⟨1, "c"⟩ 0 MediaRow.path)) :=
  (groupByClass_comma_splitting.1 dbC9 0 MediaRow.path ⟨1, "c"⟩ "a,b"
    (by decide) (by decide) (by decide)).2.1

/-- Claim C10: with an empty tuple of paths, `toggleVisibility` leaves the
catalog unchanged (the empty `IN ()` list matches no row and raises no
error), and `deleteFromDB` likewise deletes no row while still invoking
the external `deleteFile` collaborator with the empty tuple. -/
theorem empty_paths_noop (db : DB) (hv : Int) :
    toggleVisibility db [] hv = db ∧ deleteFromDB db [] = (db, []) := by
  obtain ⟨m, c, j⟩ := db
  constructor
  · unfold toggleVisibility
    simp only [DB.mk.injEq, and_true]
    have step : ∀ r ∈ m, toggleRow [] hv r = r := by
      intro r _
      unfold toggleRow
      rw [if_neg (by simp)]
    rw [List.map_congr_left step, List.map_id']
  · unfold deleteFromDB
    simp only [Prod.mk.injEq, DB.mk.injEq, and_true, true_and]
    refine List.filter_eq_self.mpr ?_
    intro r _
    simp

end PictoPy
